import Mathlib

/-
Verification of the Multi-Source RAG retrieval core.

Shallow embedding of the retrieval, fusion, reranking and ingestion logic of
the repository.  Python floats are modelled by exact rationals (ℚ); Python
exceptions by `Except String`; chunk identities by natural numbers; chunk
texts by `String`.  Each definition is a direct translation of the Python
function named in its doc comment.
-/

/-! ### Stable descending sort (models Python `sorted(..., reverse=True)` and
`list.sort(key=..., reverse=True)`, both stable mergesort in CPython).
It is modelled by stable insertion: `insertDesc x l` places `x` after every
element strictly greater than `x.2` and before the first element whose key is
`≤ x.2`; with `foldr`, earlier elements of the original list are inserted
later, so equal keys keep their original relative order. -/

def insertDesc {α : Type} (x : α × ℚ) : List (α × ℚ) → List (α × ℚ)
  | [] => [x]
  | y :: l => if x.2 < y.2 then y :: insertDesc x l else x :: y :: l

def sortDesc {α : Type} (l : List (α × ℚ)) : List (α × ℚ) :=
  l.foldr insertDesc []

theorem mem_insertDesc {α : Type} {a x : α × ℚ} {l : List (α × ℚ)} :
    a ∈ insertDesc x l ↔ a = x ∨ a ∈ l := by
  induction l with
  | nil => simp [insertDesc]
  | cons y tl ih =>
    by_cases h : x.2 < y.2
    · simp only [insertDesc, if_pos h, List.mem_cons, ih]
      tauto
    · simp only [insertDesc, if_neg h, List.mem_cons]

theorem mem_sortDesc {α : Type} {a : α × ℚ} {l : List (α × ℚ)} :
    a ∈ sortDesc l ↔ a ∈ l := by
  induction l with
  | nil => simp [sortDesc]
  | cons y tl ih =>
    simp only [sortDesc, List.foldr_cons] at ih ⊢
    rw [mem_insertDesc, ih, List.mem_cons]

theorem pairwise_insertDesc {α : Type} (x : α × ℚ) (l : List (α × ℚ))
    (h : l.Pairwise (fun p q => q.2 ≤ p.2)) :
    (insertDesc x l).Pairwise (fun p q => q.2 ≤ p.2) := by
  induction l with
  | nil => simp [insertDesc]
  | cons y tl ih =>
    rcases List.pairwise_cons.mp h with ⟨hy, htl⟩
    by_cases hlt : x.2 < y.2
    · rw [insertDesc, if_pos hlt]
      refine List.pairwise_cons.mpr ⟨?_, ih htl⟩
      intro z hz
      rcases mem_insertDesc.mp hz with rfl | hz
      · exact le_of_lt hlt
      · exact hy z hz
    · rw [insertDesc, if_neg hlt]
      refine List.pairwise_cons.mpr ⟨?_, h⟩
      intro z hz
      rcases List.mem_cons.mp hz with rfl | hz
      · exact le_of_not_lt hlt
      · exact le_trans (hy z hz) (le_of_not_lt hlt)

theorem pairwise_sortDesc {α : Type} (l : List (α × ℚ)) :
    (sortDesc l).Pairwise (fun p q => q.2 ≤ p.2) := by
  induction l with
  | nil => simp [sortDesc]
  | cons y tl ih =>
    exact pairwise_insertDesc y (sortDesc tl) ih

theorem filter_insertDesc {α : Type} (c : ℚ) (x : α × ℚ) (l : List (α × ℚ)) :
    (insertDesc x l).filter (fun p => p.2 == c) =
      if x.2 == c then x :: l.filter (fun p => p.2 == c)
      else l.filter (fun p => p.2 == c) := by
  induction l with
  | nil => cases h : (x.2 == c) <;> simp [insertDesc, List.filter, h]
  | cons y tl ih =>
    by_cases hlt : x.2 < y.2
    · rw [insertDesc, if_pos hlt]
      by_cases hx : x.2 = c
      · have hy : ¬ (y.2 == c) = true := by
          simp only [beq_iff_eq]
          intro hyc
          exact absurd (hx ▸ hyc ▸ hlt) (lt_irrefl _)
        simp only [List.filter, hy, Bool.false_eq_true, if_false, ih,
          beq_iff_eq, hx, if_true, if_pos]
      · have hx' : ¬ (x.2 == c) = true := by simp [beq_iff_eq, hx]
        simp only [List.filter, ih, hx', Bool.false_eq_true, if_false]
    · rw [insertDesc, if_neg hlt]
      by_cases hx : (x.2 == c) = true
      · simp only [List.filter, hx, if_pos, if_true]
      · simp only [List.filter, hx, Bool.false_eq_true, if_false]

theorem filter_sortDesc {α : Type} (c : ℚ) (l : List (α × ℚ)) :
    (sortDesc l).filter (fun p => p.2 == c) = l.filter (fun p => p.2 == c) := by
  induction l with
  | nil => simp [sortDesc]
  | cons y tl ih =>
    have : sortDesc (y :: tl) = insertDesc y (sortDesc tl) := rfl
    rw [this, filter_insertDesc, ih]
    by_cases hy : (y.2 == c) = true
    · simp only [List.filter, hy, if_pos, if_true]
    · simp only [List.filter, hy, Bool.false_eq_true, if_false]

/-! ### Reciprocal Rank Fusion
(`HybridRetriever._reciprocal_rank_fusion`, src/retrieval/hybrid_retriever.py
lines 84-152).  `node_scores` is a `defaultdict(float)` keyed by node id;
Python dicts preserve insertion order, so it is modelled as an association
list to which new ids are appended at the end (`upsertScore`).  `addList`
models the inner loop `for rank, nws in enumerate(results, start=1)` and
`rrfAccumulate` the outer loop `for weight, results in
zip(self._weights, results_list)`. -/

def upsertScore : List (Nat × ℚ) → Nat → ℚ → List (Nat × ℚ)
  | [], id, v => [(id, v)]
  | (i, s) :: rest, id, v =>
    if i = id then (i, s + v) :: rest else (i, s) :: upsertScore rest id v

/-- `node_scores[node_id]` where `node_scores` is a `defaultdict(float)`:
missing keys read as `0.0`. -/
def lookupScore : List (Nat × ℚ) → Nat → ℚ
  | [], _ => 0
  | (i, s) :: rest, id => if i = id then s else lookupScore rest id

/-- The inner loop of `_reciprocal_rank_fusion`: for each node at 1-based
`rank`, add `weight * (1.0 / (k + rank))` to its accumulated score. -/
def addList (w k : ℚ) : List (Nat × ℚ) → List Nat → Nat → List (Nat × ℚ)
  | m, [], _ => m
  | m, x :: rest, rank =>
    addList w k (upsertScore m x (w * (1 / (k + (rank : ℚ))))) rest (rank + 1)

/-- The outer loop of `_reciprocal_rank_fusion` over
`zip(self._weights, results_list)`. -/
def rrfAccumulate (k : ℚ) : List (ℚ × List Nat) → List (Nat × ℚ) → List (Nat × ℚ)
  | [], m => m
  | (w, results) :: rest, m => rrfAccumulate k rest (addList w k m results 1)

/-- `HybridRetriever._reciprocal_rank_fusion`: accumulate RRF scores, sort
by fused score descending (`sorted(node_scores.items(), key=lambda x: x[1],
reverse=True)`, a stable sort over the dict's insertion order) and truncate
to `self._similarity_top_k`.  The fusion constant `k` defaults to `60` as in
the source. -/
def rrfFusion (weights : List ℚ) (resultsList : List (List Nat)) (topK : Nat)
    (k : ℚ := 60) : List (Nat × ℚ) :=
  (sortDesc (rrfAccumulate k (weights.zip resultsList) [])).take topK

/-- Contribution of one ranked list to one node id, summed over every
occurrence of the id: the term `w / (k + rank)` at each 1-based position
holding `id`. -/
def listContrib (w k : ℚ) : List Nat → Nat → Nat → ℚ
  | [], _, _ => 0
  | x :: rest, rank, id =>
    (if x = id then w * (1 / (k + (rank : ℚ))) else 0) +
      listContrib w k rest (rank + 1) id

/-- 1-based rank of the first occurrence of `id` in a ranked list, starting
the count at `rank` (the spec's "the chunk's 1-based position in list i"). -/
def rankOf : List Nat → Nat → Nat → Option Nat
  | [], _, _ => none
  | x :: rest, rank, id =>
    if x = id then some rank else rankOf rest (rank + 1) id

/-- The chunk's smallest observed rank across all input lists (the tie-break
key named by the spec). -/
def minObservedRank (lists : List (List Nat)) (id : Nat) : Option Nat :=
  lists.foldr (fun l acc =>
    match rankOf l 1 id, acc with
    | some r, some r2 => some (min r r2)
    | some r, none => some r
    | none, acc2 => acc2) none

theorem lookupScore_upsertScore (m : List (Nat × ℚ)) (id id' : Nat) (v : ℚ) :
    lookupScore (upsertScore m id v) id' =
      lookupScore m id' + (if id = id' then v else 0) := by
  induction m with
  | nil =>
    by_cases h : id = id' <;> simp [upsertScore, lookupScore, h]
  | cons p rest ih =>
    obtain ⟨i, s⟩ := p
    by_cases hi : i = id
    · subst hi
      by_cases h' : i = id'
      · subst h'
        simp [upsertScore, lookupScore]
      · simp [upsertScore, lookupScore, h']
    · by_cases h' : i = id'
      · subst h'
        have : id ≠ i := fun h => hi h.symm
        simp [upsertScore, lookupScore, hi, this]
      · simp [upsertScore, lookupScore, hi, h', ih]

theorem lookupScore_addList (w k : ℚ) (results : List Nat) :
    ∀ (m : List (Nat × ℚ)) (rank id : Nat),
      lookupScore (addList w k m results rank) id =
        lookupScore m id + listContrib w k results rank id := by
  induction results with
  | nil => intro m rank id; simp [addList, listContrib]
  | cons x rest ih =>
    intro m rank id
    rw [addList, listContrib, ih, lookupScore_upsertScore]
    by_cases h : x = id
    · simp only [h, if_pos]
      ring
    · simp [h]

theorem lookupScore_rrfAccumulate (k : ℚ) (pairs : List (ℚ × List Nat)) :
    ∀ (m : List (Nat × ℚ)) (id : Nat),
      lookupScore (rrfAccumulate k pairs m) id =
        lookupScore m id +
          (pairs.map (fun wl => listContrib wl.1 k wl.2 1 id)).sum := by
  induction pairs with
  | nil => intro m id; simp [rrfAccumulate]
  | cons p rest ih =>
    intro m id
    obtain ⟨w, results⟩ := p
    rw [rrfAccumulate, ih, lookupScore_addList]
    simp only [List.map_cons, List.sum_cons]
    ring

theorem listContrib_of_not_mem (w k : ℚ) (l : List Nat) :
    ∀ (rank id : Nat), id ∉ l → listContrib w k l rank id = 0 := by
  induction l with
  | nil => intro rank id _; rfl
  | cons x rest ih =>
    intro rank id h
    rw [List.mem_cons, not_or] at h
    have hx : x ≠ id := fun he => h.1 he.symm
    rw [listContrib, if_neg hx, ih (rank + 1) id h.2, add_zero]

theorem listContrib_nodup (w k : ℚ) (l : List Nat) (hl : l.Nodup) :
    ∀ (rank id : Nat),
      listContrib w k l rank id =
        match rankOf l rank id with
        | some r => w * (1 / (k + (r : ℚ)))
        | none => 0 := by
  induction l with
  | nil => intro rank id; rfl
  | cons x rest ih =>
    intro rank id
    rcases List.nodup_cons.mp hl with ⟨hx, hrest⟩
    by_cases h : x = id
    · subst h
      rw [listContrib, if_pos rfl, rankOf, if_pos rfl,
        listContrib_of_not_mem w k rest (rank + 1) x hx, add_zero]
    · rw [listContrib, if_neg h, rankOf, if_neg h, zero_add, ih hrest]

/-- Keys of the accumulated score map are pairwise distinct. -/
def keysNodup (m : List (Nat × ℚ)) : Prop := (m.map Prod.fst).Nodup

theorem map_fst_upsertScore (m : List (Nat × ℚ)) (id : Nat) (v : ℚ) :
    (upsertScore m id v).map Prod.fst =
      if id ∈ m.map Prod.fst then m.map Prod.fst
      else m.map Prod.fst ++ [id] := by
  induction m with
  | nil => simp [upsertScore]
  | cons p rest ih =>
    obtain ⟨i, s⟩ := p
    by_cases he : i = id
    · subst he
      simp [upsertScore]
    · have hne : ¬ id = i := fun h => he h.symm
      by_cases hmem : id ∈ rest.map Prod.fst
      · simp [upsertScore, he, ih, hmem, hne]
      · simp [upsertScore, he, ih, hmem, hne]

theorem keysNodup_upsertScore (m : List (Nat × ℚ)) (id : Nat) (v : ℚ)
    (h : keysNodup m) : keysNodup (upsertScore m id v) := by
  unfold keysNodup at h ⊢
  rw [map_fst_upsertScore]
  by_cases hmem : id ∈ m.map Prod.fst
  · rwa [if_pos hmem]
  · rw [if_neg hmem]
    simp [List.nodup_append, h, hmem]

theorem keysNodup_addList (w k : ℚ) (results : List Nat) :
    ∀ (m : List (Nat × ℚ)) (rank : Nat),
      keysNodup m → keysNodup (addList w k m results rank) := by
  induction results with
  | nil => intro m rank h; exact h
  | cons x rest ih =>
    intro m rank h
    exact ih _ _ (keysNodup_upsertScore m x _ h)

theorem keysNodup_rrfAccumulate (k : ℚ) (pairs : List (ℚ × List Nat)) :
    ∀ (m : List (Nat × ℚ)), keysNodup m → keysNodup (rrfAccumulate k pairs m) := by
  induction pairs with
  | nil => intro m h; exact h
  | cons p rest ih =>
    intro m h
    obtain ⟨w, results⟩ := p
    exact ih _ (keysNodup_addList w k results m 1 h)

theorem lookupScore_of_mem {m : List (Nat × ℚ)} (h : keysNodup m)
    {p : Nat × ℚ} (hp : p ∈ m) : lookupScore m p.1 = p.2 := by
  induction m with
  | nil => cases hp
  | cons q rest ih =>
    obtain ⟨j, t⟩ := q
    unfold keysNodup at h
    rcases List.nodup_cons.mp h with ⟨hj, hrest⟩
    rcases List.mem_cons.mp hp with rfl | hp'
    · simp [lookupScore]
    · have hne : j ≠ p.1 := by
        intro he
        exact hj (he ▸ List.mem_map.mpr ⟨p, hp', rfl⟩)
      rw [lookupScore, if_neg hne]
      exact ih hrest hp'

/-- Claim C1: the Fusion Combiner's fused score for every chunk equals the
sum, over every input list in which that chunk appears, of
`weight_i / (k + rank_i)` with `rank_i` the chunk's 1-based position in list
`i` (first conjunct, with the per-list term `0` — no contribution and no
penalty — when the chunk is absent from that list); and every candidate the
combiner outputs carries exactly that accumulated score (second conjunct).
`k` defaults to `60` in `rrfFusion`, as in the source. -/
theorem rrf_fused_score_eq_weighted_rank_sum (k : ℚ) (weights : List ℚ)
    (lists : List (List Nat)) (topK : Nat) (id : Nat)
    (h : ∀ l ∈ lists, l.Nodup) :
    lookupScore (rrfAccumulate k (weights.zip lists) []) id =
      ((weights.zip lists).map (fun wl =>
        match rankOf wl.2 1 id with
        | some r => wl.1 * (1 / (k + (r : ℚ)))
        | none => 0)).sum ∧
    ∀ p ∈ rrfFusion weights lists topK k,
      p.2 = lookupScore (rrfAccumulate k (weights.zip lists) []) p.1 := by
  constructor
  · rw [lookupScore_rrfAccumulate]
    have h0 : lookupScore [] id = 0 := rfl
    rw [h0, zero_add]
    apply congrArg List.sum
    apply List.map_congr_left
    intro wl hwl
    obtain ⟨w, l⟩ := wl
    have hl : l ∈ lists := (List.of_mem_zip hwl).2
    exact listContrib_nodup w k l (h l hl) 1 id
  · intro p hp
    have hmem : p ∈ rrfAccumulate k (weights.zip lists) [] := by
      have h1 : p ∈ sortDesc (rrfAccumulate k (weights.zip lists) []) :=
        List.take_subset _ _ hp
      exact mem_sortDesc.mp h1
    have hn : keysNodup (rrfAccumulate k (weights.zip lists) []) :=
      keysNodup_rrfAccumulate k _ [] (by simp [keysNodup])
    exact (lookupScore_of_mem hn hmem).symm

/-- Witness for C1 at a concrete input: `k = 60`, equal weights
`[1/2, 1/2]`, ranked lists `[[1, 2], [2]]`, chunk id `2`. -/
theorem rrf_fused_score_eq_weighted_rank_sum_witness :
    (∀ l ∈ [[1, 2], [2]], List.Nodup l) ∧
    (lookupScore (rrfAccumulate 60 ([(1 : ℚ)/2, 1/2].zip [[1, 2], [2]]) []) 2 =
      (([(1 : ℚ)/2, 1/2].zip [[1, 2], [2]]).map (fun wl =>
        match rankOf wl.2 1 2 with
        | some r => wl.1 * (1 / (60 + (r : ℚ)))
        | none => 0)).sum ∧
    ∀ p ∈ rrfFusion [(1 : ℚ)/2, 1/2] [[1, 2], [2]] 5 60,
      p.2 = lookupScore (rrfAccumulate 60 ([(1 : ℚ)/2, 1/2].zip [[1, 2], [2]]) []) p.1) :=
  ⟨by decide,
    rrf_fused_score_eq_weighted_rank_sum 60 [(1 : ℚ)/2, 1/2] [[1, 2], [2]] 5 2
      (by decide)⟩

/-- Counterexample to claim C2 as stated.  With caller-supplied weights
`[62, 61]` (accepted unchecked by the combiner), ranked lists `[[0, 1], [2]]`
and the default `k = 60`: chunk 1 (rank 2 in list 1) and chunk 2 (rank 1 in
list 2) both receive fused score `1`, chunk 2's smallest observed rank (1) is
smaller than chunk 1's (2), yet the output places chunk 1 before chunk 2 —
the sort breaks ties purely by insertion order into the score map, never by
smallest observed rank. -/
theorem rrf_tiebreak_counterexample :
    rrfFusion [62, 61] [[0, 1], [2]] 5 = [(0, 62/61), (1, 1), (2, 1)] ∧
    minObservedRank [[0, 1], [2]] 2 = some 1 ∧
    minObservedRank [[0, 1], [2]] 1 = some 2 := by
  refine ⟨?_, by decide, by decide⟩
  norm_num [rrfFusion, rrfAccumulate, addList, upsertScore, sortDesc, insertDesc]

/-- Claim C2, amended: the Fusion Combiner's output is ordered by fused
score descending; for every two candidates with equal fused scores the one
first inserted into the score map comes first (candidates of any fixed score
appear as a prefix of the score map's insertion order) — the smallest
observed rank plays no role; the output is truncated to the result limit. -/
theorem rrf_output_order_amended (weights : List ℚ) (lists : List (List Nat))
    (topK : Nat) (k : ℚ) :
    (rrfFusion weights lists topK k).length ≤ topK ∧
    (rrfFusion weights lists topK k).Pairwise (fun p q => q.2 ≤ p.2) ∧
    ∀ c : ℚ, ∃ rest,
      (rrfAccumulate k (weights.zip lists) []).filter (fun p => p.2 == c) =
        (rrfFusion weights lists topK k).filter (fun p => p.2 == c) ++ rest := by
  refine ⟨?_, ?_, ?_⟩
  · exact List.length_take_le topK _
  · exact List.Pairwise.sublist (List.take_sublist _ _) (pairwise_sortDesc _)
  · intro c
    refine ⟨((sortDesc (rrfAccumulate k (weights.zip lists) [])).drop topK).filter
      (fun p => p.2 == c), ?_⟩
    rw [← filter_sortDesc c (rrfAccumulate k (weights.zip lists) []),
      show rrfFusion weights lists topK k =
        (sortDesc (rrfAccumulate k (weights.zip lists) [])).take topK from rfl,
      ← List.filter_append, List.take_append_drop]

/-! ### Hybrid retriever construction and retrieval
(`HybridRetriever.__init__`, src/retrieval/hybrid_retriever.py lines 48-81,
and `HybridRetriever._retrieve`, lines 155-187). -/

/-- `HybridRetriever.__init__`: when `weights is None` use equal weights
`[1.0/len(retrievers)] * len(retrievers)`; raise `ValueError` when
`len(weights) != len(retrievers)`; otherwise store the weights exactly as
supplied (`self._weights = weights`) — no sign check, no normalization. -/
def hybridInit (numRetrievers : Nat) (weights : Option (List ℚ)) :
    Except String (List ℚ) :=
  let ws := match weights with
    | none => List.replicate numRetrievers (1 / (numRetrievers : ℚ))
    | some ws => ws
  if ws.length = numRetrievers then Except.ok ws
  else Except.error ("Number of weights must match number of retrievers")

/-- Collect the per-retriever results of `HybridRetriever._retrieve`'s loop
`for retriever in self._retrievers: results = retriever._retrieve(...)`.
The loop has no exception handling, so the first failing retriever aborts
the whole query. -/
def collectResults : List (Except String (List Nat)) →
    Except String (List (List Nat))
  | [] => Except.ok []
  | r :: rest =>
    match r with
    | Except.error e => Except.error e
    | Except.ok l =>
      match collectResults rest with
      | Except.error e => Except.error e
      | Except.ok ls => Except.ok (l :: ls)

/-- `HybridRetriever._retrieve`: query every retriever in order, then fuse
the collected ranked lists with `_reciprocal_rank_fusion` (default
`k = 60`).  A retriever is modelled by the outcome of its `_retrieve` call:
`Except.ok` with its ranked node ids, or `Except.error` when it raises. -/
def hybridRetrieve (weights : List ℚ)
    (retrieverResults : List (Except String (List Nat))) (topK : Nat) :
    Except String (List (Nat × ℚ)) :=
  match collectResults retrieverResults with
  | Except.error e => Except.error e
  | Except.ok lists => Except.ok (rrfFusion weights lists topK 60)

/-- Counterexample to claim C4 as stated.  The weight list `[-1, 3]` has a
negative entry and sums to `2 ≠ 1`, yet construction with two retrievers
accepts it and stores it verbatim: no rejection of negative weights and no
normalization happen. -/
theorem hybrid_weights_counterexample :
    hybridInit 2 (some [-1, 3]) = Except.ok [-1, 3] ∧
    ((-1 : ℚ) + 3 ≠ 1) ∧ ((-1 : ℚ) < 0) := by
  refine ⟨rfl, by norm_num, by norm_num⟩

/-- Claim C4, amended: at construction the Fusion Combiner rejects only a
weight count mismatched to the number of retrievers; any weight list of the
right length — negative entries and lists not summing to 1 included — is
accepted and stored exactly as supplied, with no normalization. -/
theorem hybrid_weights_amended (numRetrievers : Nat) (ws : List ℚ) :
    (ws.length = numRetrievers →
      hybridInit numRetrievers (some ws) = Except.ok ws) ∧
    (ws.length ≠ numRetrievers →
      hybridInit numRetrievers (some ws) =
        Except.error ("Number of weights must match number of retrievers")) := by
  constructor
  · intro h
    simp [hybridInit, h]
  · intro h
    simp [hybridInit, h]

/-- Witness for C4 (amended) at concrete inputs: a matching-length list is
stored verbatim, a mismatched one raises. -/
theorem hybrid_weights_amended_witness :
    (([(-1 : ℚ), 3].length = 2 →
      hybridInit 2 (some [(-1 : ℚ), 3]) = Except.ok [(-1 : ℚ), 3]) ∧
    ([(-1 : ℚ), 3].length ≠ 2 →
      hybridInit 2 (some [(-1 : ℚ), 3]) =
        Except.error ("Number of weights must match number of retrievers"))) ∧
    (([(5 : ℚ)].length = 2 →
      hybridInit 2 (some [(5 : ℚ)]) = Except.ok [(5 : ℚ)]) ∧
    ([(5 : ℚ)].length ≠ 2 →
      hybridInit 2 (some [(5 : ℚ)]) =
        Except.error ("Number of weights must match number of retrievers"))) :=
  ⟨hybrid_weights_amended 2 [(-1 : ℚ), 3], hybrid_weights_amended 2 [(5 : ℚ)]⟩

/-- Counterexample to claim C7 as stated.  When the semantic retriever
raises (`Except.error`) while the keyword retriever would have returned
`[1, 2]`, the hybrid query does not fall back to keyword-only results: the
failure propagates and the query returns no result list at all. -/
theorem hybrid_failure_counterexample :
    hybridRetrieve [1/2, 1/2]
      [Except.error ("AdapterUnavailable"), Except.ok [1, 2]] 5 =
      Except.error ("AdapterUnavailable") := rfl

/-- Claim C7, amended: if any retriever fails during a hybrid-mode query —
the remaining retrievers' results notwithstanding — the failure propagates
to the caller; `HybridRetriever._retrieve` has no exception handling and no
keyword-only fallback. -/
theorem hybrid_failure_propagates (pre : List (List Nat)) (e : String)
    (post : List (Except String (List Nat))) (weights : List ℚ) (topK : Nat) :
    hybridRetrieve weights
      (pre.map Except.ok ++ Except.error e :: post) topK = Except.error e := by
  have hc : collectResults (pre.map Except.ok ++ Except.error e :: post) =
      Except.error e := by
    induction pre with
    | nil => rfl
    | cons l rest ih => simp [collectResults, ih]
  simp [hybridRetrieve, hc]

/-! ### BM25 keyword retrieval post-processing
(`BM25Retriever._retrieve`, src/retrieval/bm25_retriever.py lines 94-139).
`self._bm25.get_scores(query_tokens)` comes from the external `rank_bm25`
library, so the score array is taken as an input: `scores[i]` is chunk `i`'s
BM25 score for the query.  `np.argsort(scores)` (default kind quicksort /
introsort, documented NOT stable) guarantees only an ascending arrangement
of the indices; the relative order of equal scores is unspecified.  The
embedding is therefore parametric in the argsort outcome: any permutation
of the `(index, score)` pairs that is ascending by score (`ascSortOf`) —
the pair form carries `scores[idx]` next to each index `idx`.  `[::-1]` is
`List.reverse`, `top_indices[:self._similarity_top_k]` is `List.take`, and
the loop `if scores[idx] > 0: results.append(NodeWithScore(node=...,
score=scores[idx]))` keeps exactly the pairs with positive score
(`bm25Process`). -/

/-- `(index, score)` pairs in corpus order, indices starting at `n`: the
second component of a pair is `scores[idx]` for its index `idx`. -/
def enumFrom : Nat → List ℚ → List (Nat × ℚ)
  | _, [] => []
  | n, s :: rest => (n, s) :: enumFrom (n + 1) rest

/-- The contract of `np.argsort(scores)`: some arrangement of all the
`(index, score)` pairs of the corpus that is ascending in the score — and
nothing more; equal scores may come out in any order. -/
def ascSortOf (pairs : List (Nat × ℚ)) (scores : List ℚ) : Prop :=
  pairs.Perm (enumFrom 0 scores) ∧ pairs.Pairwise (fun p q => p.2 ≤ q.2)

/-- `BM25Retriever._retrieve` after `get_scores`, applied to the argsort
outcome: reverse (`[::-1]`), truncate (`[:self._similarity_top_k]`) and
keep only strictly positive scores. -/
def bm25Process (pairs : List (Nat × ℚ)) (topK : Nat) : List (Nat × ℚ) :=
  ((pairs.reverse).take topK).filter (fun p => decide (0 < p.2))

theorem mem_enumFrom {p : Nat × ℚ} :
    ∀ {n : Nat} {l : List ℚ}, p ∈ enumFrom n l →
      n ≤ p.1 ∧ l.get? (p.1 - n) = some p.2 := by
  intro n l
  induction l generalizing n with
  | nil => intro h; cases h
  | cons s rest ih =>
    intro h
    rcases List.mem_cons.mp h with rfl | h'
    · simp
    · rcases ih h' with ⟨h1, h2⟩
      refine ⟨le_trans (Nat.le_succ n) h1, ?_⟩
      have hgt : p.1 - n = (p.1 - (n + 1)) + 1 := by omega
      rw [hgt]
      simpa using h2

/-- Counterexample to claim C3 as stated.  Corpus of two chunks with equal
positive scores `[1, 1]` (e.g. two texts differing only in whitespace — they
survive dedup and tokenize identically): `[(0, 1), (1, 1)]` satisfies the
argsort contract — it is moreover the outcome numpy's introsort actually
produces at this size, where it runs plain insertion sort — and processing
it places chunk 1 BEFORE chunk 0 although both scores are equal and chunk 0
comes earlier in the corpus: an execution the program permits violates the
claimed earlier-corpus-first tie-break. -/
theorem bm25_tiebreak_counterexample :
    ascSortOf [(0, 1), (1, 1)] [1, 1] ∧
    bm25Process [(0, 1), (1, 1)] 2 = [(1, 1), (0, 1)] := by
  refine ⟨⟨?_, ?_⟩, ?_⟩
  · exact List.Perm.refl _
  · norm_num [List.pairwise_cons]
  · norm_num [bm25Process, List.filter]

/-- Claim C3, amended: for every corpus (score array), query and argsort
outcome satisfying numpy's contract, `BM25Retriever._retrieve` returns only
chunks with strictly positive scores (each carrying its own corpus score),
at most `k` of them, ordered by score descending; the relative order of two
chunks with equal scores is NOT specified — it is inherited from the
unstable `np.argsort`, and in particular the earlier-corpus-order-first
tie-break is not guaranteed. -/
theorem bm25_retrieve_amended (scores : List ℚ) (topK : Nat)
    (pairs : List (Nat × ℚ)) (h : ascSortOf pairs scores) :
    (∀ p ∈ bm25Process pairs topK, 0 < p.2 ∧ scores.get? p.1 = some p.2) ∧
    (bm25Process pairs topK).length ≤ topK ∧
    (bm25Process pairs topK).Pairwise (fun p q => q.2 ≤ p.2) := by
  obtain ⟨hperm, hsorted⟩ := h
  refine ⟨?_, ?_, ?_⟩
  · intro p hp
    rcases List.mem_filter.mp hp with ⟨htake, hpos⟩
    have h1 : p ∈ pairs.reverse := List.take_subset _ _ htake
    have h2 : p ∈ pairs := List.mem_reverse.mp h1
    have h3 : p ∈ enumFrom 0 scores := hperm.subset h2
    have h4 := (mem_enumFrom h3).2
    rw [Nat.sub_zero] at h4
    exact ⟨of_decide_eq_true hpos, h4⟩
  · exact le_trans (List.length_filter_le _ _) (List.length_take_le _ _)
  · refine List.Pairwise.filter _ ?_
    refine List.Pairwise.sublist (List.take_sublist _ _) ?_
    exact List.pairwise_reverse.mpr hsorted

/-- Witness for C3 (amended) at the concrete corpus `[1, 1]`, `k = 2`, and
the argsort outcome `[(0, 1), (1, 1)]`. -/
theorem bm25_retrieve_amended_witness :
    ascSortOf [(0, 1), (1, 1)] [1, 1] ∧
    ((∀ p ∈ bm25Process [(0, 1), (1, 1)] 2,
      0 < p.2 ∧ [(1 : ℚ), 1].get? p.1 = some p.2) ∧
    (bm25Process [(0, 1), (1, 1)] 2).length ≤ 2 ∧
    (bm25Process [(0, 1), (1, 1)] 2).Pairwise (fun p q => q.2 ≤ p.2)) := by
  have h : ascSortOf [(0, 1), (1, 1)] [1, 1] :=
    ⟨List.Perm.refl _, by norm_num [List.pairwise_cons]⟩
  exact ⟨h, bm25_retrieve_amended [1, 1] 2 [(0, 1), (1, 1)] h⟩


/-! ### Unified ingestion: deduplicating content store
(`UnifiedIngestionManager`, src/ingestion/unified_manager.py).  The state is
the `self.documents` list and the `self.content_hashes` set (modelled as the
list of hashes in reverse insertion order; only membership and cardinality
are used).  `_compute_hash` is `hashlib.sha256(text.encode()).hexdigest()`:
a deterministic digest of the RAW text — the embedding is parametric in the
digest function, with `computeHash` the collision-free instance used for
concrete runs. -/

structure IngestState where
  documents : List String
  contentHashes : List String

/-- Fresh manager: `self.documents = []`, `self.content_hashes = set()`. -/
def initState : IngestState := { documents := [], contentHashes := [] }

/-- `UnifiedIngestionManager._compute_hash` modelled as a collision-free
fingerprint of the raw (un-normalized) text.  sha256 is deterministic and
collision-free on all concrete inputs considered here, so the identity
serves as its digest. -/
def computeHash : String → String := fun text => text

/-- `UnifiedIngestionManager._is_duplicate`: hash the raw text; if the hash
was seen return `True` (state unchanged), else record the hash and return
`False`.  There is no emptiness check and no whitespace normalization. -/
def isDuplicate (hash : String → String) (st : IngestState) (text : String) :
    Bool × IngestState :=
  let h := hash text
  if h ∈ st.contentHashes then (true, st)
  else (false, { st with contentHashes := h :: st.contentHashes })

/-- The per-chunk body of `add_pdfs` / `add_urls` / `add_csvs`:
`if not self._is_duplicate(chunk.text): self.documents.append(chunk)`. -/
def addChunk (hash : String → String) (st : IngestState) (text : String) :
    IngestState :=
  let r := isDuplicate hash st text
  if r.1 then r.2 else { r.2 with documents := r.2.documents ++ [text] }

/-- A batch of inserts (the loop over `chunks` in the `add_*` methods). -/
def addChunks (hash : String → String) (st : IngestState)
    (texts : List String) : IngestState :=
  texts.foldl (addChunk hash) st

/-- The operations a caller can run against the store: chunk inserts and
`UnifiedIngestionManager.clear()` (which resets `documents` and
`content_hashes`). -/
inductive IngestOp
  | insert : String → IngestOp
  | clear : IngestOp

def applyOp (hash : String → String) (st : IngestState) :
    IngestOp → IngestState
  | IngestOp.insert t => addChunk hash st t
  | IngestOp.clear => { documents := [], contentHashes := [] }

/-- Any sequence of inserts and clears against a fresh manager. -/
def runOps (hash : String → String) (ops : List IngestOp) : IngestState :=
  ops.foldl (applyOp hash) initState

/-- `get_statistics()['total_documents'] = len(self.documents)`. -/
def totalDocuments (st : IngestState) : Nat := st.documents.length

/-- `get_statistics()['unique_content_hashes'] = len(self.content_hashes)`. -/
def uniqueContentHashes (st : IngestState) : Nat := st.contentHashes.length

/-- `' '.join(text.split())` — the whitespace normalization that appears in
the source (web_scraper.py line 142): collapse every whitespace run to a
single space and drop leading/trailing whitespace.  `splitWordsAux` models
Python's `str.split()` with no argument. -/
def splitWordsAux : List Char → List Char → List (List Char)
  | [], acc => if acc = [] then [] else [acc.reverse]
  | c :: rest, acc =>
    if c.isWhitespace then
      if acc = [] then splitWordsAux rest []
      else acc.reverse :: splitWordsAux rest []
    else splitWordsAux rest (c :: acc)

def splitWords (s : String) : List (List Char) :=
  splitWordsAux s.data []

def normalizeWhitespace (s : String) : String :=
  String.intercalate (" ") ((splitWords s).map (fun w => String.mk w))

/-- Empty after trimming: every character is whitespace (Python
`not text.strip()`). -/
def emptyAfterTrim (s : String) : Bool :=
  s.data.all (fun c => c.isWhitespace)

theorem ingest_lengths_eq (hash : String → String) :
    ∀ (ops : List IngestOp) (st : IngestState),
      st.contentHashes.length = st.documents.length →
      (ops.foldl (applyOp hash) st).contentHashes.length =
        (ops.foldl (applyOp hash) st).documents.length := by
  intro ops
  induction ops with
  | nil => intro st h; exact h
  | cons op rest ih =>
    intro st h
    refine ih _ ?_
    cases op with
    | clear => rfl
    | insert t =>
      show (addChunk hash st t).contentHashes.length =
        (addChunk hash st t).documents.length
      by_cases hmem : hash t ∈ st.contentHashes
      · simp [addChunk, isDuplicate, hmem, h]
      · simp [addChunk, isDuplicate, hmem, h]

/-- Counterexample to claim C5 as stated.  `"a b"` and `"a  b"` are
byte-identical after whitespace normalization but differ as raw bytes;
dedup hashes the RAW text, so inserting both stores TWO chunks, not one. -/
theorem dedup_normalization_counterexample :
    normalizeWhitespace ("a b") = normalizeWhitespace ("a  b") ∧
    ("a b" : String) ≠ ("a  b") ∧
    totalDocuments (addChunks computeHash initState [("a b"), ("a  b")]) = 2 := by
  refine ⟨by decide, by decide, by decide⟩

/-- Claim C5, amended: inserting the same RAW text twice (byte-identical,
not merely identical after whitespace normalization) yields exactly one
stored chunk — the second insert is reported as a duplicate and leaves the
state unchanged — and after every sequence of inserts and clears
`unique_content_hashes` never exceeds `total_documents`. -/
theorem dedup_amended (hash : String → String) (t : String)
    (ops : List IngestOp) :
    totalDocuments (addChunks hash initState [t, t]) = 1 ∧
    (isDuplicate hash (addChunk hash initState t) t).1 = true ∧
    addChunk hash (addChunk hash initState t) t = addChunk hash initState t ∧
    uniqueContentHashes (runOps hash ops) ≤ totalDocuments (runOps hash ops) := by
  have hfirst : addChunk hash initState t =
      { documents := [t], contentHashes := [hash t] } := by
    simp [addChunk, isDuplicate, initState]
  have hdup : (isDuplicate hash (addChunk hash initState t) t).1 = true := by
    rw [hfirst]
    simp [isDuplicate]
  refine ⟨?_, hdup, ?_, ?_⟩
  · show totalDocuments (addChunk hash (addChunk hash initState t) t) = 1
    rw [hfirst]
    simp [addChunk, isDuplicate, totalDocuments]
  · rw [hfirst]
    simp [addChunk, isDuplicate]
  · exact le_of_eq (ingest_lengths_eq hash ops initState rfl)

/-- Counterexample to claim C6 as stated.  Inserting the text `" "` (empty
after trimming) into a fresh store is NOT rejected: `_is_duplicate` reports
it as new (`false`, i.e. the ordinary Added outcome — no `RejectedEmpty`
outcome exists in the code) and the chunk IS stored. -/
theorem empty_insert_counterexample :
    emptyAfterTrim (" ") = true ∧
    (isDuplicate computeHash initState (" ")).1 = false ∧
    totalDocuments (addChunk computeHash initState (" ")) = 1 := by
  refine ⟨by decide, by decide, by decide⟩

/-- Claim C6, amended: an insert whose text is empty after trimming is not
specially rejected — there is no `RejectedEmpty` outcome.  It flows through
the ordinary dedup path: the first such text is stored (the collection
grows to one chunk), and re-inserting it is reported as a duplicate and
leaves the state unchanged. -/
theorem empty_insert_amended (hash : String → String) (t : String)
    (_h : emptyAfterTrim t = true) :
    totalDocuments (addChunk hash initState t) = 1 ∧
    (isDuplicate hash (addChunk hash initState t) t).1 = true ∧
    addChunk hash (addChunk hash initState t) t = addChunk hash initState t := by
  have hfirst : addChunk hash initState t =
      { documents := [t], contentHashes := [hash t] } := by
    simp [addChunk, isDuplicate, initState]
  refine ⟨?_, ?_, ?_⟩
  · rw [hfirst]; rfl
  · rw [hfirst]; simp [isDuplicate]
  · rw [hfirst]; simp [addChunk, isDuplicate]

/-- Witness for C6 (amended) at the concrete empty text `""`. -/
theorem empty_insert_amended_witness :
    emptyAfterTrim ("") = true ∧
    (totalDocuments (addChunk computeHash initState ("")) = 1 ∧
    (isDuplicate computeHash (addChunk computeHash initState ("")) ("")).1 = true ∧
    addChunk computeHash (addChunk computeHash initState ("")) ("") =
      addChunk computeHash initState ("")) :=
  ⟨by decide, empty_insert_amended computeHash ("") (by decide)⟩

/-! ### Reranker (`SimpleReranker`, src/ranking/reranking.py).  A candidate
is its text together with its optional retrieval score (`NodeWithScore`:
`node.node.text`, `node.score : Optional[float]`). -/

structure SimpleReranker where
  scoreWeight : ℚ
  lengthWeight : ℚ
  keywordWeight : ℚ
  idealLength : Nat

/-- `SimpleReranker.__init__`: store the three weights and divide each by
their total (`total = score_weight + length_weight + keyword_weight`).
Source defaults: `0.5, 0.2, 0.3, 500`. -/
def SimpleReranker.mk' (sw lw kw : ℚ) (ideal : Nat) : SimpleReranker :=
  let total := sw + lw + kw
  { scoreWeight := sw / total
    lengthWeight := lw / total
    keywordWeight := kw / total
    idealLength := ideal }

/-- The reranker constructed with all default arguments. -/
def defaultReranker : SimpleReranker :=
  SimpleReranker.mk' (1/2) (1/5) (3/10) 500

/-- `node.score if hasattr(node, 'score') and node.score else 0.5`: a
missing/`None` score and a score of exactly `0.0` are both falsy in Python,
so both fall back to the neutral `0.5`. -/
def originalScore : Option ℚ → ℚ
  | none => 1/2
  | some v => if v = 0 then 1/2 else v

/-- `SimpleReranker._score_length` (lines 89-113):
`max(0.0, 1.0 - abs(len(text) - ideal) / ideal)`. -/
def scoreLength (ideal : Nat) (text : String) : ℚ :=
  let length : ℚ := (text.length : ℚ)
  let diff : ℚ := |length - (ideal : ℚ)|
  max 0 (1 - diff / (ideal : ℚ))

/-- `text.lower().split()` as a list of words (lists of characters). -/
def tokenizeWords (s : String) : List (List Char) :=
  splitWordsAux (s.data.map Char.toLower) []

/-- `SimpleReranker._score_keyword_overlap` (lines 116-150):
`overlap = len(set(query.lower().split()) & set(text.lower().split()))`,
returned as `overlap / len(query_words)`, or `0.0` for an empty query. -/
def scoreKeywordOverlap (query text : String) : ℚ :=
  let queryWords := (tokenizeWords query).dedup
  let textWords := (tokenizeWords text).dedup
  let overlap := (queryWords.filter (fun w => decide (w ∈ textWords))).length
  if queryWords.length = 0 then 0
  else (overlap : ℚ) / (queryWords.length : ℚ)

/-- The per-node combined score of `SimpleReranker.rerank` (lines 182-199):
`score_weight * original + length_weight * length + keyword_weight * kw`. -/
def SimpleReranker.combinedScore (r : SimpleReranker) (query text : String)
    (orig : Option ℚ) : ℚ :=
  r.scoreWeight * originalScore orig +
    r.lengthWeight * scoreLength r.idealLength text +
    r.keywordWeight * scoreKeywordOverlap query text

/-- `SimpleReranker.rerank` (lines 153-217): score every node, sort by the
combined score descending (`list.sort(key=lambda x: x.score, reverse=True)`,
stable) and return the first `top_k`. -/
def SimpleReranker.rerank (r : SimpleReranker) (query : String)
    (nodes : List (String × Option ℚ)) (topK : Nat) : List (String × ℚ) :=
  let scored := nodes.map (fun n => (n.1, r.combinedScore query n.1 n.2))
  (sortDesc scored).take topK

theorem originalScore_bounds (orig : Option ℚ)
    (h : ∀ v, orig = some v → 0 ≤ v ∧ v ≤ 1) :
    0 ≤ originalScore orig ∧ originalScore orig ≤ 1 := by
  cases orig with
  | none => norm_num [originalScore]
  | some v =>
    by_cases hv : v = 0
    · norm_num [originalScore, hv]
    · have := h v rfl
      simp only [originalScore, if_neg hv]
      exact this

theorem scoreLength_nonneg (ideal : Nat) (text : String) :
    0 ≤ scoreLength ideal text := le_max_left 0 _

theorem scoreLength_le_one (ideal : Nat) (text : String) :
    scoreLength ideal text ≤ 1 := by
  refine max_le (by norm_num) ?_
  have h : 0 ≤ |(text.length : ℚ) - (ideal : ℚ)| / (ideal : ℚ) :=
    div_nonneg (abs_nonneg _) (by positivity)
  linarith

theorem scoreKeywordOverlap_nonneg (query text : String) :
    0 ≤ scoreKeywordOverlap query text := by
  unfold scoreKeywordOverlap
  by_cases h : (tokenizeWords query).dedup.length = 0
  · simp [h]
  · simp only [h, if_false]
    positivity

theorem scoreKeywordOverlap_le_one (query text : String) :
    scoreKeywordOverlap query text ≤ 1 := by
  unfold scoreKeywordOverlap
  by_cases h : (tokenizeWords query).dedup.length = 0
  · simp [h]
  · simp only [h, if_false]
    rw [div_le_one (by positivity)]
    exact_mod_cast List.length_filter_le _ _

theorem combinedScore_bounds (r : SimpleReranker)
    (h0 : 0 ≤ r.scoreWeight) (h1 : 0 ≤ r.lengthWeight)
    (h2 : 0 ≤ r.keywordWeight)
    (hsum : r.scoreWeight + r.lengthWeight + r.keywordWeight = 1)
    (query text : String) (orig : Option ℚ)
    (horig : ∀ v, orig = some v → 0 ≤ v ∧ v ≤ 1) :
    0 ≤ r.combinedScore query text orig ∧
      r.combinedScore query text orig ≤ 1 := by
  obtain ⟨ho1, ho2⟩ := originalScore_bounds orig horig
  have hl1 := scoreLength_nonneg r.idealLength text
  have hl2 := scoreLength_le_one r.idealLength text
  have hk1 := scoreKeywordOverlap_nonneg query text
  have hk2 := scoreKeywordOverlap_le_one query text
  unfold SimpleReranker.combinedScore
  constructor
  · exact add_nonneg (add_nonneg (mul_nonneg h0 ho1) (mul_nonneg h1 hl1))
      (mul_nonneg h2 hk1)
  · have e0 : r.scoreWeight * originalScore orig ≤ r.scoreWeight := by
      simpa using mul_le_mul_of_nonneg_left ho2 h0
    have e1 : r.lengthWeight * scoreLength r.idealLength text ≤
        r.lengthWeight := by
      simpa using mul_le_mul_of_nonneg_left hl2 h1
    have e2 : r.keywordWeight * scoreKeywordOverlap query text ≤
        r.keywordWeight := by
      simpa using mul_le_mul_of_nonneg_left hk2 h2
    linarith

/-- Counterexample to claim C8 as stated.  With the strictly positive
caller-supplied weights `0.5 / 0.2 / 0.3` (the source defaults, already
summing to 1) and one candidate of text `"a"` with retrieval score `10`,
the reranker assigns the combined score `12501/2500 > 1`: combined scores
are NOT bounded by 1 when an input retrieval score exceeds 1 (the code
never clamps the original-score signal). -/
theorem reranker_score_bound_counterexample :
    ((0 : ℚ) < 1/2 ∧ (0 : ℚ) < 1/5 ∧ (0 : ℚ) < 3/10) ∧
    defaultReranker.rerank ("q") [(("a" : String), some 10)] 3 =
      [(("a" : String), 12501/2500)] ∧
    ¬ ((12501 : ℚ)/2500 ≤ 1) := by
  refine ⟨by norm_num, ?_, by norm_num⟩
  have hq : (tokenizeWords ("q")).dedup.length = 1 := by decide
  have hov : ((tokenizeWords ("q")).dedup.filter
      (fun w => decide (w ∈ (tokenizeWords ("a")).dedup))).length = 0 := by
    decide
  have hko : scoreKeywordOverlap ("q") ("a") = 0 := by
    simp only [scoreKeywordOverlap]
    rw [hq, hov]
    norm_num
  have hlen : ("a" : String).length = 1 := rfl
  have hsl : scoreLength 500 ("a") = 1/500 := by
    rw [scoreLength, hlen,
      show ((1 : Nat) : ℚ) - ((500 : Nat) : ℚ) = -(499 : ℚ) by push_cast; ring,
      abs_neg, abs_of_nonneg (by norm_num : (0 : ℚ) ≤ 499),
      show (499 : ℚ) / ((500 : Nat) : ℚ) = 499/500 by push_cast; ring,
      show (1 : ℚ) - 499/500 = 1/500 by norm_num,
      max_eq_right (by norm_num : (0 : ℚ) ≤ 1/500)]
  have hideal : defaultReranker.idealLength = 500 := rfl
  have hcs : defaultReranker.combinedScore ("q") ("a") (some 10) =
      12501/2500 := by
    rw [SimpleReranker.combinedScore, hideal, hsl, hko]
    norm_num [defaultReranker, SimpleReranker.mk', originalScore]
  simp [SimpleReranker.rerank, hcs, sortDesc, insertDesc]

/-- Claim C8, amended: for any three strictly positive caller-supplied
weights the three effective weights after construction sum to exactly 1
(hence certainly within `1e-9`); and every combined score the reranker
assigns lies in `[0, 1]` PROVIDED every candidate's retrieval score lies in
`[0, 1]` (a missing score uses the neutral `0.5`) — without that proviso a
retrieval score above 1 is passed through unclamped and the bound fails. -/
theorem reranker_weights_bounds_amended (sw lw kw : ℚ)
    (hsw : 0 < sw) (hlw : 0 < lw) (hkw : 0 < kw) (ideal : Nat)
    (query : String) (nodes : List (String × Option ℚ))
    (hn : ∀ n ∈ nodes, ∀ v, n.2 = some v → 0 ≤ v ∧ v ≤ 1) (topK : Nat) :
    (SimpleReranker.mk' sw lw kw ideal).scoreWeight +
      (SimpleReranker.mk' sw lw kw ideal).lengthWeight +
      (SimpleReranker.mk' sw lw kw ideal).keywordWeight = 1 ∧
    ∀ p ∈ (SimpleReranker.mk' sw lw kw ideal).rerank query nodes topK,
      0 ≤ p.2 ∧ p.2 ≤ 1 := by
  have ht : 0 < sw + lw + kw := by linarith
  have hsum : (SimpleReranker.mk' sw lw kw ideal).scoreWeight +
      (SimpleReranker.mk' sw lw kw ideal).lengthWeight +
      (SimpleReranker.mk' sw lw kw ideal).keywordWeight = 1 := by
    show sw / (sw + lw + kw) + lw / (sw + lw + kw) + kw / (sw + lw + kw) = 1
    field_simp
  refine ⟨hsum, ?_⟩
  intro p hp
  have h1 : p ∈ sortDesc (nodes.map (fun n =>
      (n.1, (SimpleReranker.mk' sw lw kw ideal).combinedScore query n.1 n.2))) :=
    List.take_subset _ _ hp
  have h2 := mem_sortDesc.mp h1
  rcases List.mem_map.mp h2 with ⟨n, hnmem, rfl⟩
  exact combinedScore_bounds (SimpleReranker.mk' sw lw kw ideal)
    (div_nonneg hsw.le ht.le) (div_nonneg hlw.le ht.le)
    (div_nonneg hkw.le ht.le) hsum query n.1 n.2 (hn n hnmem)

/-- Witness for C8 (amended) at concrete inputs: weights `0.5 / 0.2 / 0.3`,
ideal length 500, query `"q"`, one candidate with no retrieval score. -/
theorem reranker_weights_bounds_amended_witness :
    ((0 : ℚ) < 1/2 ∧ (0 : ℚ) < 1/5 ∧ (0 : ℚ) < 3/10 ∧
      (∀ n ∈ [(("a" : String), (none : Option ℚ))],
        ∀ v, n.2 = some v → 0 ≤ v ∧ v ≤ 1)) ∧
    ((SimpleReranker.mk' (1/2) (1/5) (3/10) 500).scoreWeight +
      (SimpleReranker.mk' (1/2) (1/5) (3/10) 500).lengthWeight +
      (SimpleReranker.mk' (1/2) (1/5) (3/10) 500).keywordWeight = 1 ∧
    ∀ p ∈ (SimpleReranker.mk' (1/2) (1/5) (3/10) 500).rerank ("q")
        [(("a" : String), (none : Option ℚ))] 3,
      0 ≤ p.2 ∧ p.2 ≤ 1) :=
  ⟨⟨by norm_num, by norm_num, by norm_num, by simp⟩,
    reranker_weights_bounds_amended (1/2) (1/5) (3/10)
      (by norm_num) (by norm_num) (by norm_num) 500 ("q")
      [(("a" : String), (none : Option ℚ))] (by simp) 3⟩

/-- Claim C9: the reranker's length-fitness signal equals
`max(0, 1 − |len(text) − ideal_length| / ideal_length)`; a text whose
length equals the ideal length scores exactly 1, a text of length zero or
of twice the ideal length scores exactly 0, and all values lie in
`[0, 1]`. -/
theorem score_length_boundaries (ideal : Nat) (hpos : 0 < ideal)
    (t1 t0 t2 t : String) (h1 : t1.length = ideal) (h0 : t0.length = 0)
    (h2 : t2.length = 2 * ideal) :
    scoreLength ideal t1 = 1 ∧ scoreLength ideal t0 = 0 ∧
    scoreLength ideal t2 = 0 ∧
    0 ≤ scoreLength ideal t ∧ scoreLength ideal t ≤ 1 ∧
    scoreLength ideal t =
      max 0 (1 - |(t.length : ℚ) - (ideal : ℚ)| / (ideal : ℚ)) := by
  have hQ : (0 : ℚ) < (ideal : ℚ) := by exact_mod_cast hpos
  refine ⟨?_, ?_, ?_, scoreLength_nonneg ideal t, scoreLength_le_one ideal t,
    rfl⟩
  · rw [scoreLength, h1]
    simp
  · rw [scoreLength, h0]
    rw [show ((0 : Nat) : ℚ) - (ideal : ℚ) = -(ideal : ℚ) by push_cast; ring,
      abs_neg, abs_of_nonneg hQ.le, div_self (ne_of_gt hQ)]
    simp
  · rw [scoreLength, h2]
    rw [show (((2 * ideal : Nat)) : ℚ) - (ideal : ℚ) = (ideal : ℚ) by
      push_cast; ring, abs_of_nonneg hQ.le, div_self (ne_of_gt hQ)]
    simp

/-- Witness for C9 at `ideal_length = 1` with texts `"a"`, `""`, `"ab"`,
`"xyz"`. -/
theorem score_length_boundaries_witness :
    (0 < 1 ∧ ("a" : String).length = 1 ∧ ("" : String).length = 0 ∧
      ("ab" : String).length = 2 * 1) ∧
    (scoreLength 1 ("a") = 1 ∧ scoreLength 1 ("") = 0 ∧
    scoreLength 1 ("ab") = 0 ∧
    0 ≤ scoreLength 1 ("xyz") ∧ scoreLength 1 ("xyz") ≤ 1 ∧
    scoreLength 1 ("xyz") =
      max 0 (1 - |(("xyz" : String).length : ℚ) - ((1 : Nat) : ℚ)| /
        ((1 : Nat) : ℚ))) :=
  ⟨⟨by decide, by decide, by decide, by decide⟩,
    score_length_boundaries 1 (by decide) ("a") ("") ("ab") ("xyz")
      (by decide) (by decide) (by decide)⟩

/-- Claim C10: a candidate whose retrieval score is exactly `0.0` gets the
neutral default `0.5` for the original-score signal — `0.0` is falsy in
Python — so it is scored identically to a candidate with no score at all
(both per combined score and through `rerank`), and that signal contributes
the strictly positive `score_weight * 0.5` under the default weights. -/
theorem zero_score_neutral_default :
    originalScore (some 0) = 1/2 ∧
    originalScore none = 1/2 ∧
    (∀ query text : String, ∀ orig : Option ℚ, orig = some 0 →
      defaultReranker.combinedScore query text orig =
        defaultReranker.combinedScore query text none) ∧
    (∀ (query text : String) (rest : List (String × Option ℚ)) (topK : Nat),
      defaultReranker.rerank query ((text, some 0) :: rest) topK =
        defaultReranker.rerank query ((text, none) :: rest) topK) ∧
    0 < defaultReranker.scoreWeight * originalScore (some 0) := by
  have h1 : originalScore (some 0) = 1/2 := by norm_num [originalScore]
  have h2 : originalScore none = 1/2 := rfl
  have hc : ∀ query text : String,
      defaultReranker.combinedScore query text (some 0) =
        defaultReranker.combinedScore query text none := by
    intro query text
    rw [SimpleReranker.combinedScore, SimpleReranker.combinedScore, h1, h2]
  refine ⟨h1, h2, ?_, ?_, ?_⟩
  · intro query text orig ho
    rw [ho]
    exact hc query text
  · intro query text rest topK
    rw [SimpleReranker.rerank, SimpleReranker.rerank]
    simp only [List.map_cons, hc]
  · have hw : defaultReranker.scoreWeight = 1/2 := by
      norm_num [defaultReranker, SimpleReranker.mk']
    rw [hw, h1]
    norm_num
